import Mathlib

/-!
Shallow embedding of the thread-role synchronization and cross-core timing
framework of microBM/loadsStores.cc: logical positions, the sharing and
visibility role tables, the visibility interval computation, clock-offset
estimation, round-trip scaling, allocation-failure handling and the
configuration checks of main.
-/

namespace LoadsStores

/-- Upper bound on the thread count, MAX_THREADS in the source. -/
def MAX_THREADS : ℕ := 512

/-- Logical position of thread me relative to the source thread, as computed
in measureSharingFrom and measureVisibilityFrom:
(me + nThreads - source) % nThreads. -/
def logicalPosition (nThreads source me : ℕ) : ℕ :=
  (me + nThreads - source) % nThreads

lemma logicalPosition_eq_add (nThreads source me : ℕ) (h : source ≤ nThreads) :
    logicalPosition nThreads source me = (me + (nThreads - source)) % nThreads := by
  unfold logicalPosition
  congr 1
  omega

lemma logicalPosition_lt (nThreads source me : ℕ) (h : 0 < nThreads) :
    logicalPosition nThreads source me < nThreads :=
  Nat.mod_lt _ h

lemma logicalPosition_source (nThreads source : ℕ) (h : source ≤ nThreads) :
    logicalPosition nThreads source source = 0 := by
  unfold logicalPosition
  have heq : source + nThreads - source = nThreads := by omega
  rw [heq, Nat.mod_self]

lemma logicalPosition_leftInv (nThreads source me : ℕ) (hs : source < nThreads)
    (hme : me < nThreads) :
    (logicalPosition nThreads source me + source) % nThreads = me := by
  rw [logicalPosition_eq_add _ _ _ (le_of_lt hs), Nat.mod_add_mod]
  have h1 : me + (nThreads - source) + source = me + nThreads := by omega
  rw [h1, Nat.add_mod_right, Nat.mod_eq_of_lt hme]

lemma logicalPosition_rightInv (nThreads source p : ℕ) (hs : source < nThreads)
    (hp : p < nThreads) :
    logicalPosition nThreads source ((p + source) % nThreads) = p := by
  rw [logicalPosition_eq_add _ _ _ (le_of_lt hs), Nat.mod_add_mod]
  have h1 : p + source + (nThreads - source) = p + nThreads := by omega
  rw [h1, Nat.add_mod_right, Nat.mod_eq_of_lt hp]

/-- C3: for every nThreads > 0 and source < nThreads, the logical-position
map me ↦ (me + nThreads - source) % nThreads is a bijection from
[0, nThreads) onto [0, nThreads), and it maps the source thread to
position 0. -/
theorem logicalPosition_bijOn (nThreads source : ℕ) (h0 : 0 < nThreads)
    (hs : source < nThreads) :
    Set.BijOn (logicalPosition nThreads source) (Set.Iio nThreads) (Set.Iio nThreads) ∧
    logicalPosition nThreads source source = 0 := by
  constructor
  · have hinv : Set.InvOn (fun p => (p + source) % nThreads)
        (logicalPosition nThreads source) (Set.Iio nThreads) (Set.Iio nThreads) := by
      refine ⟨?_, ?_⟩
      · intro me hme
        exact logicalPosition_leftInv nThreads source me hs (Set.mem_Iio.mp hme)
      · intro p hp
        exact logicalPosition_rightInv nThreads source p hs (Set.mem_Iio.mp hp)
    refine hinv.bijOn ?_ ?_
    · intro me _
      exact Set.mem_Iio.mpr (logicalPosition_lt nThreads source me h0)
    · intro p _
      exact Set.mem_Iio.mpr (Nat.mod_lt _ h0)
  · exact logicalPosition_source nThreads source (le_of_lt hs)

/-- Witness for C3 at nThreads = 4, source = 1. -/
theorem logicalPosition_bijOn_witness :
    Set.BijOn (logicalPosition 4 1) (Set.Iio 4) (Set.Iio 4) ∧
    logicalPosition 4 1 1 = 0 :=
  logicalPosition_bijOn 4 1 (by decide) (by decide)

/-- Roles a thread can take in the sharing protocol, from the enum in
measureSharingFrom. -/
inductive SharingRole
  | active
  | setup
  | setupOwner
  | nothing
deriving DecidableEq

/-- Role assignment of measureSharingFrom for a given reach (sharing) and
logical position: position 0 is active, positions below sharing are setup,
position sharing is setupOwner, larger positions do nothing. -/
def sharingRole (sharing logicalPos : ℕ) : SharingRole :=
  if logicalPos = 0 then SharingRole.active
  else if logicalPos < sharing then SharingRole.setup
  else if logicalPos = sharing then SharingRole.setupOwner
  else SharingRole.nothing

lemma sharingRole_eq_active_iff (sharing p : ℕ) :
    sharingRole sharing p = SharingRole.active ↔ p = 0 := by
  unfold sharingRole
  split_ifs <;> simp_all

lemma sharingRole_eq_setup_iff (sharing p : ℕ) :
    sharingRole sharing p = SharingRole.setup ↔ 1 ≤ p ∧ p < sharing := by
  unfold sharingRole
  split_ifs <;> simp_all <;> omega

lemma sharingRole_eq_owner_iff (sharing p : ℕ) (h1 : 1 ≤ sharing) :
    sharingRole sharing p = SharingRole.setupOwner ↔ p = sharing := by
  unfold sharingRole
  split_ifs <;> simp_all <;> omega

lemma sharingRole_eq_nothing_iff (sharing p : ℕ) (h1 : 1 ≤ sharing) :
    sharingRole sharing p = SharingRole.nothing ↔ sharing < p := by
  unfold sharingRole
  split_ifs <;> simp_all <;> omega

lemma card_filter_logicalPosition (nThreads source : ℕ) (h0 : 0 < nThreads)
    (hs : source < nThreads) (P : ℕ → Prop) [DecidablePred P] :
    ((Finset.range nThreads).filter fun me =>
      P (logicalPosition nThreads source me)).card =
    ((Finset.range nThreads).filter P).card := by
  refine Finset.card_nbij' (logicalPosition nThreads source)
    (fun p => (p + source) % nThreads) ?_ ?_ ?_ ?_
  · intro a ha
    simp only [Finset.mem_filter, Finset.mem_range] at ha ⊢
    exact ⟨logicalPosition_lt _ _ _ h0, ha.2⟩
  · intro p hp
    simp only [Finset.mem_filter, Finset.mem_range] at hp ⊢
    refine ⟨Nat.mod_lt _ h0, ?_⟩
    rw [logicalPosition_rightInv _ _ _ hs hp.1]
    exact hp.2
  · intro a ha
    simp only [Finset.mem_filter, Finset.mem_range] at ha
    exact logicalPosition_leftInv _ _ _ hs ha.1
  · intro p hp
    simp only [Finset.mem_filter, Finset.mem_range] at hp
    exact logicalPosition_rightInv _ _ _ hs hp.1

lemma filter_count_active (n sharing : ℕ) (h0 : 0 < n) :
    ((Finset.range n).filter fun p =>
      sharingRole sharing p = SharingRole.active).card = 1 := by
  have heq : ((Finset.range n).filter fun p =>
      sharingRole sharing p = SharingRole.active) = {0} := by
    ext p
    simp only [Finset.mem_filter, Finset.mem_range, sharingRole_eq_active_iff,
      Finset.mem_singleton]
    omega
  rw [heq, Finset.card_singleton]

lemma filter_count_setup (n sharing : ℕ) (hn : sharing ≤ n) :
    ((Finset.range n).filter fun p =>
      sharingRole sharing p = SharingRole.setup).card = sharing - 1 := by
  have heq : ((Finset.range n).filter fun p =>
      sharingRole sharing p = SharingRole.setup) = Finset.Ico 1 sharing := by
    ext p
    simp only [Finset.mem_filter, Finset.mem_range, sharingRole_eq_setup_iff,
      Finset.mem_Ico]
    omega
  rw [heq, Nat.card_Ico]

lemma filter_count_owner (n sharing : ℕ) (h1 : 1 ≤ sharing) (h2 : sharing < n) :
    ((Finset.range n).filter fun p =>
      sharingRole sharing p = SharingRole.setupOwner).card = 1 := by
  have heq : ((Finset.range n).filter fun p =>
      sharingRole sharing p = SharingRole.setupOwner) = {sharing} := by
    ext p
    simp only [Finset.mem_filter, Finset.mem_range, sharingRole_eq_owner_iff _ _ h1,
      Finset.mem_singleton]
    omega
  rw [heq, Finset.card_singleton]

lemma filter_count_nothing (n sharing : ℕ) (h1 : 1 ≤ sharing) :
    ((Finset.range n).filter fun p =>
      sharingRole sharing p = SharingRole.nothing).card = n - 1 - sharing := by
  have heq : ((Finset.range n).filter fun p =>
      sharingRole sharing p = SharingRole.nothing) = Finset.Ico (sharing + 1) n := by
    ext p
    simp only [Finset.mem_filter, Finset.mem_range, sharingRole_eq_nothing_iff _ _ h1,
      Finset.mem_Ico]
    omega
  rw [heq, Nat.card_Ico]
  omega

/-- Conclusion of the sharing role-table claim for one configuration:
the pointwise role of every logical position, and the role counts over
the whole thread team. -/
def SharingTableSpec (nThreads source sharing : ℕ) : Prop :=
  sharingRole sharing 0 = SharingRole.active ∧
  (∀ p, 1 ≤ p → p < sharing → sharingRole sharing p = SharingRole.setup) ∧
  sharingRole sharing sharing = SharingRole.setupOwner ∧
  (∀ p, sharing < p → sharingRole sharing p = SharingRole.nothing) ∧
  ((Finset.range nThreads).filter fun me =>
    sharingRole sharing (logicalPosition nThreads source me) = SharingRole.active).card
    = 1 ∧
  ((Finset.range nThreads).filter fun me =>
    sharingRole sharing (logicalPosition nThreads source me) = SharingRole.setupOwner).card
    = 1 ∧
  ((Finset.range nThreads).filter fun me =>
    sharingRole sharing (logicalPosition nThreads source me) = SharingRole.setup).card
    = sharing - 1 ∧
  ((Finset.range nThreads).filter fun me =>
    sharingRole sharing (logicalPosition nThreads source me) = SharingRole.nothing).card
    = nThreads - 1 - sharing ∧
  1 + 1 + (sharing - 1) + (nThreads - 1 - sharing) = nThreads

/-- C2: in measureSharingFrom, for 2 ≤ nThreads, source < nThreads and
1 ≤ sharing < nThreads, logical position 0 is active, positions
1..sharing-1 are setup, position sharing is setupOwner and higher
positions do nothing; exactly one thread is active, one is setupOwner,
sharing - 1 are setup, the rest do nothing, the counts sum to nThreads;
and for nThreads = 4, source = 0, sharing = 2 the roles in logical order
are [active, setup, setupOwner, nothing]. -/
theorem sharingRole_table (nThreads source sharing : ℕ) (hn : 2 ≤ nThreads)
    (hs : source < nThreads) (h1 : 1 ≤ sharing) (h2 : sharing < nThreads) :
    SharingTableSpec nThreads source sharing ∧
    (List.range 4).map (fun me => sharingRole 2 (logicalPosition 4 0 me)) =
      [SharingRole.active, SharingRole.setup, SharingRole.setupOwner,
       SharingRole.nothing] := by
  have h0 : 0 < nThreads := by omega
  refine ⟨⟨?_, ?_, ?_, ?_, ?_, ?_, ?_, ?_, ?_⟩, by decide⟩
  · simp [sharingRole]
  · intro p hp1 hp2
    exact (sharingRole_eq_setup_iff sharing p).mpr ⟨hp1, hp2⟩
  · exact (sharingRole_eq_owner_iff sharing sharing h1).mpr rfl
  · intro p hp
    exact (sharingRole_eq_nothing_iff sharing p h1).mpr hp
  · exact (card_filter_logicalPosition nThreads source h0 hs
      (fun x => sharingRole sharing x = SharingRole.active)).trans
      (filter_count_active nThreads sharing h0)
  · exact (card_filter_logicalPosition nThreads source h0 hs
      (fun x => sharingRole sharing x = SharingRole.setupOwner)).trans
      (filter_count_owner nThreads sharing h1 h2)
  · exact (card_filter_logicalPosition nThreads source h0 hs
      (fun x => sharingRole sharing x = SharingRole.setup)).trans
      (filter_count_setup nThreads sharing (le_of_lt h2))
  · exact (card_filter_logicalPosition nThreads source h0 hs
      (fun x => sharingRole sharing x = SharingRole.nothing)).trans
      (filter_count_nothing nThreads sharing h1)
  · omega

/-- Witness for C2 at nThreads = 4, source = 0, sharing = 2. -/
theorem sharingRole_table_witness :
    SharingTableSpec 4 0 2 ∧
    (List.range 4).map (fun me => sharingRole 2 (logicalPosition 4 0 me)) =
      [SharingRole.active, SharingRole.setup, SharingRole.setupOwner,
       SharingRole.nothing] :=
  sharingRole_table 4 0 2 (by decide) (by decide) (by decide) (by decide)

/-- Roles a thread can take in the visibility protocol, from the enum in
measureVisibilityFrom. -/
inductive VisRole
  | active
  | polling
  | nothing
deriving DecidableEq

/-- Role assignment of measureVisibilityFrom: position 0 is active,
positions 1..sharing poll, larger positions do nothing. -/
def visibilityRole (sharing logicalPos : ℕ) : VisRole :=
  if logicalPos = 0 then VisRole.active
  else if logicalPos ≤ sharing then VisRole.polling
  else VisRole.nothing

/-- Timestamp comparison tsc_tick_count.later. Modelled from the spec: the
later of two timestamps, the maximum; stats-timing.h is not part of the
sources, and the spec describes the latest (maximum) corrected arrival. -/
def later (a b : ℤ) : ℤ := max a b

/-- Embedding of longestInterval: starting from array[1], fold later over
array[2], ..., array[n-1], and subtract array[0]. This is exactly the loop
for (i = 2; i < n; i++) maxVal = maxVal.later(array[i]) of the source. -/
def longestInterval (array : ℕ → ℤ) (n : ℕ) : ℤ :=
  ((List.range' 2 (n - 2)).foldl (fun acc i => later acc (array i)) (array 1))
    - array 0

/-- Elapsed value the claim asks for, following the words of the spec: the
maximum corrected arrival over all polling threads, which sit at logical
positions 1 through sharing inclusive, minus the store time array[0]. -/
def specVisibilityElapsed (array : ℕ → ℤ) (sharing : ℕ) : ℤ :=
  (((List.range' 1 sharing).map array).foldl max (array 1)) - array 0

/-- Concrete timestamps refuting C1: store at time 0 in threadTimes[0], the
poller at position 1 arrives at 5, the poller at position 2 arrives at 10. -/
def bugTimes : ℕ → ℤ :=
  fun i => if i = 0 then 0 else if i = 1 then 5 else if i = 2 then 10 else 0

/-- C1: with nThreads = 3 and sharing = 2, logical position 2 is a polling
thread, yet the elapsed value computed by the source,
longestInterval(threadTimes, sharing), only spans positions 1..sharing-1
and yields 5, while the maximum corrected arrival over all sharing pollers
(positions 1..sharing) minus the store time is 10: the code drops the last
poller, contradicting the stated property and the comment of the function. -/
theorem longestInterval_drops_last_poller :
    visibilityRole 2 2 = VisRole.polling ∧
    longestInterval bugTimes 2 = 5 ∧
    specVisibilityElapsed bugTimes 2 = 10 ∧
    longestInterval bugTimes 2 ≠ specVisibilityElapsed bugTimes 2 := by
  refine ⟨by decide, by decide, by decide, by decide⟩

/-- One ping-pong trial of computeClockOffset: the local time Tstart just
before releasing to the peer, the timestamp Tother the peer sends back and
the local time Tend on receiving the reply. Timestamps are tick counts,
embedded as integers. -/
structure Trial where
  Tstart : ℤ
  Tother : ℤ
  Tend : ℤ

/-- Per-trial offset sample of computeClockOffset, in exact arithmetic:
Tcomms = (Tend - Tstart) / 2, TOtherStart = Tother - Tcomms, and the sample
is Tstart - TOtherStart. -/
def offsetSample (t : Trial) : ℚ :=
  (t.Tstart : ℚ) - ((t.Tother : ℚ) - ((t.Tend : ℚ) - (t.Tstart : ℚ)) / 2)

/-- Loop of computeClockOffset on thread zero for one peer: the accumulator
is the pair (number of samples, sum of samples) held by the statistic, and
the iteration with index 0 adds nothing, matching the continue on i == 0. -/
def clockOffsetStatAux : ℕ → List Trial → ℕ × ℚ → ℕ × ℚ
  | _, [], acc => acc
  | i, t :: rest, acc =>
      clockOffsetStatAux (i + 1) rest
        (if i = 0 then acc else (acc.1 + 1, acc.2 + offsetSample t))

/-- Statistic state after the trial loop of computeClockOffset, starting
from an empty statistic at index 0. -/
def clockOffsetStat (trials : List Trial) : ℕ × ℚ :=
  clockOffsetStatAux 0 trials (0, 0)

/-- Mean of an accumulated statistic. Modelled from the spec: the sink is
external, and the spec says samples are averaged (mean). -/
def getMean (stat : ℕ × ℚ) : ℚ := stat.2 / (stat.1 : ℚ)

/-- Conversion of the double mean to int64_t: C++ truncation toward zero. -/
def truncToZero (q : ℚ) : ℤ := if q < 0 then ⌈q⌉ else ⌊q⌋

/-- Value stored into offsets[other]: int64_t(stat.getMean()). -/
def storedOffset (trials : List Trial) : ℤ :=
  truncToZero (getMean (clockOffsetStat trials))

/-- Mean of a list of rationals, following the words of the spec. -/
def listMean (xs : List ℚ) : ℚ := xs.sum / (xs.length : ℚ)

lemma clockOffsetStatAux_pos (ts : List Trial) :
    ∀ (i : ℕ), 1 ≤ i → ∀ (c : ℕ) (s : ℚ),
    clockOffsetStatAux i ts (c, s) = (c + ts.length, s + (ts.map offsetSample).sum) := by
  induction ts with
  | nil =>
    intro i hi c s
    simp [clockOffsetStatAux]
  | cons t rest ih =>
    intro i hi c s
    have hne : i ≠ 0 := by omega
    simp only [clockOffsetStatAux, hne, if_false]
    rw [ih (i + 1) (by omega) (c + 1) (s + offsetSample t)]
    simp only [List.length_cons, List.map_cons, List.sum_cons, Prod.mk.injEq]
    constructor
    · omega
    · ring

lemma clockOffsetStat_eq (trials : List Trial) :
    clockOffsetStat trials =
      ((trials.drop 1).length, ((trials.drop 1).map offsetSample).sum) := by
  cases trials with
  | nil => simp [clockOffsetStat, clockOffsetStatAux]
  | cons t rest =>
    show clockOffsetStatAux 1 rest (if (0 : ℕ) = 0 then ((0 : ℕ), (0 : ℚ)) else _) = _
    rw [if_pos rfl, clockOffsetStatAux_pos rest 1 (by omega) 0 0]
    simp

/-- C4 amended: the stored offsets[other] is the truncation toward zero of
the mean of the offset samples of all trials after the first (discarded
warm-up) one, and each sample obeys both equivalent formulas
Tstart - (Tother - (Tend - Tstart)/2) and Tstart - Tother + Tcomms. -/
theorem storedOffset_eq_trunc_mean (trials : List Trial) (t : Trial) :
    storedOffset trials =
      truncToZero (listMean ((trials.drop 1).map offsetSample)) ∧
    offsetSample t =
      (t.Tstart : ℚ) - (t.Tother : ℚ) + ((t.Tend : ℚ) - (t.Tstart : ℚ)) / 2 := by
  constructor
  · unfold storedOffset getMean listMean
    rw [clockOffsetStat_eq]
    simp
  · unfold offsetSample
    ring

/-- Trials refuting the unamended C4: a warm-up trial followed by two
retained trials whose samples are 2 and 3. -/
def cexTrials : List Trial :=
  [⟨0, 0, 0⟩, ⟨10, 9, 12⟩, ⟨10, 8, 12⟩]

/-- C4 counterexample: on cexTrials the retained samples have mean 5/2,
but the value stored by computeClockOffset is the int64 truncation 2, so
the stored offset is not the mean of the remaining offset samples. -/
theorem storedOffset_ne_mean :
    listMean ((cexTrials.drop 1).map offsetSample) = 5 / 2 ∧
    storedOffset cexTrials = 2 ∧
    ((storedOffset cexTrials : ℤ) : ℚ) ≠ listMean ((cexTrials.drop 1).map offsetSample) := by
  have hmap : (cexTrials.drop 1).map offsetSample = [2, 3] := by
    norm_num [cexTrials, offsetSample]
  have hmean : listMean ((cexTrials.drop 1).map offsetSample) = 5 / 2 := by
    rw [hmap]
    norm_num [listMean]
  have hstat : getMean (clockOffsetStat cexTrials) = 5 / 2 := by
    rw [clockOffsetStat_eq]
    unfold getMean
    simp only [List.length_map, hmap]
    norm_num [cexTrials]
  have hstored : storedOffset cexTrials = 2 := by
    unfold storedOffset truncToZero
    rw [hstat, if_neg (by norm_num)]
    rw [Int.floor_eq_iff]
    norm_num
  refine ⟨hmean, hstored, ?_⟩
  rw [hstored, hmean]
  norm_num

/-- Accumulated effect of a list of array writes (index, value), leftmost
write first, on an initial array state. -/
def applyWrites (writes : List (ℕ × ℤ)) (init : ℕ → ℤ) : ℕ → ℤ :=
  writes.foldl (fun f w => Function.update f w.1 w.2) init

lemma applyWrites_nil (init : ℕ → ℤ) : applyWrites [] init = init := rfl

lemma applyWrites_cons (w : ℕ × ℤ) (ws : List (ℕ × ℤ)) (init : ℕ → ℤ) :
    applyWrites (w :: ws) init = applyWrites ws (Function.update init w.1 w.2) := rfl

/-- Writes performed on the offsets array by computeClockOffset: first
offsets[0] = 0, then offsets[other] = int64_t(stat.getMean()) for each
other = 1, ..., nThreads - 1 in order. -/
def clockOffsetWrites (nThreads : ℕ) (trialsFor : ℕ → List Trial) : List (ℕ × ℤ) :=
  (0, 0) :: (List.range' 1 (nThreads - 1)).map
    (fun other => (other, storedOffset (trialsFor other)))

/-- Offsets array produced by one estimation pass of computeClockOffset,
given the trial data each peer produced and the arbitrary initial contents
of the array. -/
def computeClockOffset (nThreads : ℕ) (trialsFor : ℕ → List Trial)
    (init : ℕ → ℤ) : ℕ → ℤ :=
  applyWrites (clockOffsetWrites nThreads trialsFor) init

lemma applyWrites_map_outside (g : ℕ → ℤ) :
    ∀ (k start : ℕ) (init : ℕ → ℤ) (j : ℕ), j < start ∨ start + k ≤ j →
    applyWrites ((List.range' start k).map fun o => (o, g o)) init j = init j := by
  intro k
  induction k with
  | zero =>
    intro start init j hj
    simp [applyWrites]
  | succ k ih =>
    intro start init j hj
    rw [List.range'_succ, List.map_cons, applyWrites_cons]
    rw [ih (start + 1) _ j (by omega)]
    simp only [Function.update_apply]
    rw [if_neg (by omega)]

lemma applyWrites_map_inside (g : ℕ → ℤ) :
    ∀ (k start : ℕ) (init : ℕ → ℤ) (j : ℕ), start ≤ j → j < start + k →
    applyWrites ((List.range' start k).map fun o => (o, g o)) init j = g j := by
  intro k
  induction k with
  | zero =>
    intro start init j h1 h2
    omega
  | succ k ih =>
    intro start init j h1 h2
    rw [List.range'_succ, List.map_cons, applyWrites_cons]
    rcases eq_or_lt_of_le h1 with heq | hlt
    · rw [applyWrites_map_outside g k (start + 1) _ j (Or.inl (by omega))]
      simp only [Function.update_apply]
      rw [if_pos (by omega), heq]
    · rw [ih (start + 1) _ j (by omega) (by omega)]

lemma count_range' (t : ℕ) : ∀ (k s : ℕ),
    (List.range' s k).count t = if s ≤ t ∧ t < s + k then 1 else 0 := by
  intro k
  induction k with
  | zero =>
    intro s
    rw [if_neg (by omega)]
    simp
  | succ k ih =>
    intro s
    rw [List.range'_succ, List.count_cons, ih (s + 1)]
    split_ifs <;> simp_all <;> omega

lemma clockOffsetWrites_map_fst (nThreads : ℕ) (trialsFor : ℕ → List Trial) :
    (clockOffsetWrites nThreads trialsFor).map Prod.fst =
      0 :: List.range' 1 (nThreads - 1) := by
  unfold clockOffsetWrites
  rw [List.map_cons, List.map_map]
  have hid : (Prod.fst ∘ fun other => (other, storedOffset (trialsFor other))) = id := by
    funext x
    rfl
  rw [hid, List.map_id]

/-- C10: one pass of computeClockOffset leaves offsets[0] = 0, stores into
offsets[t], for every t in [1, nThreads), the truncated mean offset of the
trials of peer t, and the write trace touches index 0 and each such index t
exactly once. -/
theorem computeClockOffset_writes (nThreads : ℕ) (trialsFor : ℕ → List Trial)
    (init : ℕ → ℤ) (t : ℕ) (h1 : 1 ≤ t) (h2 : t < nThreads) :
    computeClockOffset nThreads trialsFor init 0 = 0 ∧
    computeClockOffset nThreads trialsFor init t = storedOffset (trialsFor t) ∧
    ((clockOffsetWrites nThreads trialsFor).map Prod.fst).count 0 = 1 ∧
    ((clockOffsetWrites nThreads trialsFor).map Prod.fst).count t = 1 := by
  have hcons : computeClockOffset nThreads trialsFor init =
      applyWrites ((List.range' 1 (nThreads - 1)).map
        fun o => (o, storedOffset (trialsFor o)))
        (Function.update init 0 0) := rfl
  refine ⟨?_, ?_, ?_, ?_⟩
  · rw [hcons, applyWrites_map_outside _ (nThreads - 1) 1 _ 0 (Or.inl (by omega))]
    simp
  · rw [hcons, applyWrites_map_inside _ (nThreads - 1) 1 _ t h1 (by omega)]
  · rw [clockOffsetWrites_map_fst, List.count_cons, count_range' 0 (nThreads - 1) 1]
    simp only [beq_iff_eq]
    split_ifs <;> omega
  · rw [clockOffsetWrites_map_fst, List.count_cons, count_range' t (nThreads - 1) 1]
    simp only [beq_iff_eq]
    split_ifs <;> omega

/-- Witness for C10 at nThreads = 2, empty trial lists, arbitrary initial
array contents, peer t = 1. -/
theorem computeClockOffset_writes_witness :
    computeClockOffset 2 (fun _ => []) (fun _ => 37) 0 = 0 ∧
    computeClockOffset 2 (fun _ => []) (fun _ => 37) 1 = storedOffset [] ∧
    ((clockOffsetWrites 2 (fun _ => [])).map Prod.fst).count 0 = 1 ∧
    ((clockOffsetWrites 2 (fun _ => [])).map Prod.fst).count 1 = 1 :=
  computeClockOffset_writes 2 (fun _ => []) (fun _ => 37) 1 (by decide) (by decide)

/-- Events the source thread performs inside one timed round-trip sample. -/
inductive RTEvent
  | release
  | waitFor
deriving DecidableEq

/-- Burst size innerReps of measureRoundtripFrom. -/
def innerReps : ℕ := 20

/-- Timed body of one sample of measureRoundtripFrom on the source thread:
K release calls on the channel, then one waitFor that confirms the final
consumption before the timer stops. -/
def roundtripBurst (K : ℕ) : List RTEvent :=
  List.replicate K RTEvent.release ++ [RTEvent.waitFor]

/-- ScaleDown of the statistics sink applied to its accumulated samples.
Modelled from the spec: the sink is external and opaque, and the spec says
scaling down by a factor divides the accumulated time by that factor. -/
def scaleDown (samples : List ℚ) (factor : ℕ) : List ℚ :=
  samples.map (fun s => s / (factor : ℚ))

/-- Reported per-exchange samples of measureRoundtripFrom for burst size K:
the raw burst elapsed values scaled down by 2 * K, from
stats[i].scaleDown(2 * innerReps). -/
def roundtripReported (K : ℕ) (raws : List ℚ) : List ℚ :=
  scaleDown raws (2 * K)

/-- C5: each timed sample of measureRoundtripFrom is a burst of
K = innerReps = 20 releases followed by one waitFor; every reported
per-exchange value is the raw burst elapsed value divided by 2 * K; and
doubling K while doubling every raw burst elapsed value leaves the
reported per-exchange values unchanged. -/
theorem roundtrip_per_exchange_scaling (K : ℕ) (raws : List ℚ) :
    (roundtripBurst innerReps).count RTEvent.release = innerReps ∧
    (roundtripBurst innerReps).getLast? = some RTEvent.waitFor ∧
    roundtripReported K raws = raws.map (fun r => r / ((2 * K : ℕ) : ℚ)) ∧
    roundtripReported (2 * K) (raws.map (fun r => 2 * r)) =
      roundtripReported K raws := by
  refine ⟨by decide, by decide, rfl, ?_⟩
  unfold roundtripReported scaleDown
  rw [List.map_map]
  apply List.map_congr_left
  intro r _
  show (2 * r) / ((2 * (2 * K) : ℕ) : ℚ) = r / ((2 * K : ℕ) : ℚ)
  rcases Nat.eq_zero_or_pos K with hK | hK
  · subst hK
    norm_num
  · have h2K : ((2 * K : ℕ) : ℚ) ≠ 0 := Nat.cast_ne_zero.mpr (by omega)
    push_cast
    push_cast at h2K
    field_simp
    ring

/-- Outcome of one invocation of measureLinePlacement. -/
inductive LPOutcome
  | measured
  | returnedWithoutMeasuring
  | aborted
deriving DecidableEq

/-- Embedding of allocatePageOfChannels: when malloc fails it prints
"Cannot allocate a page" to stderr and returns the null pointer; otherwise
it returns the aligned, initialized page. -/
def allocatePageOfChannels (mallocSucceeds : Bool) : Option Unit × List String :=
  if mallocSucceeds then (some (), []) else (none, ["Cannot allocate a page"])

/-- Embedding of the control flow of measureLinePlacement around the page
allocation: a null page makes the function return before any measurement,
otherwise the measurement runs; no path terminates the process. -/
def measureLinePlacement (mallocSucceeds : Bool) : LPOutcome × List String :=
  match allocatePageOfChannels mallocSucceeds with
  | (some _, ds) => (LPOutcome.measured, ds)
  | (none, ds) => (LPOutcome.returnedWithoutMeasuring, ds)

/-- C6 counterexample: when the page allocation of the line-placement
protocol fails, the program does not abort; it prints the diagnostic and
measureLinePlacement returns, so the process continues. -/
theorem linePlacement_alloc_failure_not_fatal :
    (measureLinePlacement false).1 ≠ LPOutcome.aborted ∧
    (measureLinePlacement false).2 = ["Cannot allocate a page"] := by
  refine ⟨by decide, rfl⟩

/-- C6 amended: a failed page allocation in the line-placement protocol is
reported with a diagnostic and makes measureLinePlacement return without
measuring, while a successful allocation lets the measurement run; neither
path aborts the process. -/
theorem linePlacement_alloc_failure_returns :
    measureLinePlacement false =
      (LPOutcome.returnedWithoutMeasuring, ["Cannot allocate a page"]) ∧
    measureLinePlacement true = (LPOutcome.measured, []) :=
  ⟨rfl, rfl⟩

/-- Sample recording step of measureVisibilityFrom, from the source line
if (elapsed > 0) stats[sharing].addSample(elapsed): the computed elapsed
value joins the samples of the current poller count only when positive. -/
def visibilityRecord (samples : List ℤ) (elapsed : ℤ) : List ℤ :=
  if elapsed > 0 then samples ++ [elapsed] else samples

/-- C7: an elapsed visibility value is appended to the statistics samples
iff it is strictly positive, and a non-positive elapsed value leaves the
samples unchanged, with no error outcome. -/
theorem visibilityRecord_filter (samples : List ℤ) (elapsed : ℤ) :
    (visibilityRecord samples elapsed = samples ++ [elapsed] ↔ 0 < elapsed) ∧
    (visibilityRecord samples elapsed = samples ↔ elapsed ≤ 0) := by
  unfold visibilityRecord
  split_ifs with h <;> simp [h] <;> omega

/-- Output stream a diagnostic is printed to. -/
inductive OutStream
  | stdout
  | stderr
deriving DecidableEq

/-- Result of the configuration checks of main: an error carrying the
diagnostic, the stream it goes to and the process exit code, or a
successful dispatch to an experiment. -/
inductive CheckResult
  | error (diag : String) (stream : OutStream) (exitCode : ℕ)
  | proceed
deriving DecidableEq

/-- Null character, what indexing a C string past its end reads. -/
def nulChar : Char := Char.ofNat 0

/-- Embedding of the configuration checking of main, in source order: the
thread-count checks, the missing-argument check, and the selector checks of
the switch on argv[1] with the second and third character checks of the
P and S experiments. Every diagnostic is emitted with printf, hence on
stdout, and every error path returns 1. -/
def mainConfigCheck (nThreads : ℕ) (argv1 : Option (List Char)) : CheckResult :=
  if MAX_THREADS < nThreads then
    CheckResult.error "increase MAX_THREADS" OutStream.stdout 1
  else if nThreads < 2 then
    CheckResult.error "Need more than one thread" OutStream.stdout 1
  else
    match argv1 with
    | none => CheckResult.error "Need an argument" OutStream.stdout 1
    | some arg =>
      let c0 := arg.getD 0 nulChar
      if c0 = 'L' ∨ c0 = 'M' ∨ c0 = 'N' ∨ c0 = 'R' ∨ c0 = 'V' then
        CheckResult.proceed
      else if c0 = 'P' ∨ c0 = 'S' then
        let c1 := arg.getD 1 nulChar
        let c2 := arg.getD 2 nulChar
        if ¬(c1 = 'r' ∨ c1 = 'w' ∨ c1 = 'a') then
          CheckResult.error "Unknown second character" OutStream.stdout 1
        else if ¬(c2 = 'u' ∨ c2 = 'm') then
          CheckResult.error "Unkown third character" OutStream.stdout 1
        else
          CheckResult.proceed
      else
        CheckResult.error "Unknown experiment" OutStream.stdout 1

/-- C8 counterexample: with a single thread the configuration error is
real and fatal, but its diagnostic is printed with printf, to standard
output, not to standard error as claimed. -/
theorem configError_stream_cex :
    mainConfigCheck 1 (some ['M']) =
      CheckResult.error "Need more than one thread" OutStream.stdout 1 ∧
    OutStream.stdout ≠ OutStream.stderr := by
  refine ⟨rfl, by decide⟩

/-- C8 amended: every configuration error of main — unsupported thread
count, missing argument, or unrecognized experiment or operation selector —
is fatal with exit code 1, and its diagnostic goes to standard output. -/
theorem configError_fatal_stdout (nThreads : ℕ) (argv1 : Option (List Char)) :
    ((MAX_THREADS < nThreads ∨ nThreads < 2) →
      ∃ d, mainConfigCheck nThreads argv1 =
        CheckResult.error d OutStream.stdout 1) ∧
    (argv1 = none → 2 ≤ nThreads → nThreads ≤ MAX_THREADS →
      mainConfigCheck nThreads argv1 =
        CheckResult.error "Need an argument" OutStream.stdout 1) ∧
    (∀ arg, argv1 = some arg → 2 ≤ nThreads → nThreads ≤ MAX_THREADS →
      arg.getD 0 nulChar ∉ (['L', 'M', 'N', 'R', 'V', 'P', 'S'] : List Char) →
      mainConfigCheck nThreads argv1 =
        CheckResult.error "Unknown experiment" OutStream.stdout 1) ∧
    (∀ d s e, mainConfigCheck nThreads argv1 = CheckResult.error d s e →
      s = OutStream.stdout ∧ e = 1) := by
  refine ⟨?_, ?_, ?_, ?_⟩
  · intro h
    unfold mainConfigCheck
    rcases h with h | h
    · rw [if_pos h]
      exact ⟨_, rfl⟩
    · have hn : ¬ MAX_THREADS < nThreads := by
        unfold MAX_THREADS
        omega
      rw [if_neg hn, if_pos h]
      exact ⟨_, rfl⟩
  · intro ha h2 hM
    subst ha
    unfold mainConfigCheck
    rw [if_neg (by omega), if_neg (by omega)]
  · intro arg ha h2 hM hmem
    subst ha
    simp only [List.mem_cons, List.not_mem_nil, or_false, not_or] at hmem
    obtain ⟨hL, hMc, hN, hR, hV, hP, hS⟩ := hmem
    unfold mainConfigCheck
    rw [if_neg (by omega), if_neg (by omega)]
    simp only []
    rw [if_neg (by tauto), if_neg (by tauto)]
  · intro d s e h
    cases argv1 with
    | none =>
      unfold mainConfigCheck at h
      split_ifs at h <;> simp_all
    | some arg =>
      unfold mainConfigCheck at h
      split_ifs at h <;> simp_all <;> split_ifs at h <;> simp_all

/-- Witness for C8, applying the amended theorem at three concrete
configurations: one thread with a valid selector, two threads with no
argument, and two threads with an unknown selector X. -/
theorem configError_fatal_stdout_witness :
    (∃ d, mainConfigCheck 1 (some ['M']) =
      CheckResult.error d OutStream.stdout 1) ∧
    mainConfigCheck 2 none =
      CheckResult.error "Need an argument" OutStream.stdout 1 ∧
    mainConfigCheck 2 (some ['X']) =
      CheckResult.error "Unknown experiment" OutStream.stdout 1 :=
  ⟨(configError_fatal_stdout 1 (some ['M'])).1 (Or.inr (by decide)),
   (configError_fatal_stdout 2 none).2.1 rfl (by decide) (by decide),
   (configError_fatal_stdout 2 (some ['X'])).2.2.1 ['X'] rfl (by decide)
     (by decide) (by decide)⟩

/-- Number of elements one operation touches, measurementArraySize from
rawLoadsStores.h. Modelled from the spec: rawLoadsStores.h is not among
the sources, and the spec says doLoads and doStores generate 256
(measurementArraySize) accesses. -/
def measurementArraySize : ℕ := 256

/-- Final loop of measureVisibilityFrom before returning: for every i in
[1, nThreads), stats[i].scaleDown(measurementArraySize). The statistics
state is the list of accumulated samples per index. -/
def visibilityScaleLoop (nThreads : ℕ) (stats : ℕ → List ℚ) : ℕ → List ℚ :=
  (List.range' 1 (nThreads - 1)).foldl
    (fun f i => Function.update f i (scaleDown (f i) measurementArraySize)) stats

/-- Same fold with explicit start and count, for the induction. -/
def scaleFold (start k : ℕ) (f : ℕ → List ℚ) : ℕ → List ℚ :=
  (List.range' start k).foldl
    (fun g i => Function.update g i (scaleDown (g i) measurementArraySize)) f

lemma visibilityScaleLoop_eq_scaleFold (nThreads : ℕ) (stats : ℕ → List ℚ) :
    visibilityScaleLoop nThreads stats = scaleFold 1 (nThreads - 1) stats := rfl

lemma scaleFold_cons (start k : ℕ) (f : ℕ → List ℚ) :
    scaleFold start (k + 1) f =
      scaleFold (start + 1) k
        (Function.update f start (scaleDown (f start) measurementArraySize)) := by
  unfold scaleFold
  rw [List.range'_succ]
  rfl

lemma scaleFold_outside : ∀ (k start : ℕ) (f : ℕ → List ℚ) (j : ℕ),
    j < start ∨ start + k ≤ j → scaleFold start k f j = f j := by
  intro k
  induction k with
  | zero =>
    intro start f j hj
    rfl
  | succ k ih =>
    intro start f j hj
    rw [scaleFold_cons, ih (start + 1) _ j (by omega)]
    simp only [Function.update_apply]
    rw [if_neg (by omega)]

lemma scaleFold_inside : ∀ (k start : ℕ) (f : ℕ → List ℚ) (j : ℕ),
    start ≤ j → j < start + k →
    scaleFold start k f j = scaleDown (f j) measurementArraySize := by
  intro k
  induction k with
  | zero =>
    intro start f j h1 h2
    omega
  | succ k ih =>
    intro start f j h1 h2
    rw [scaleFold_cons]
    rcases eq_or_lt_of_le h1 with heq | hlt
    · rw [scaleFold_outside k (start + 1) _ j (Or.inl (by omega))]
      simp only [Function.update_apply]
      rw [if_pos (by omega), heq]
    · rw [ih (start + 1) _ j (by omega) (by omega)]
      simp only [Function.update_apply]
      rw [if_neg (by omega)]

/-- C9: before measureVisibilityFrom returns, the statistic of every
poller count i in [1, nThreads) is scaled down by
measurementArraySize = 256, so every reported visibility statistic is the
accumulated elapsed value divided by measurementArraySize, even though
each sample measures a single store; index 0 is left untouched. -/
theorem visibilityScaleLoop_scales (nThreads : ℕ) (stats : ℕ → List ℚ)
    (i : ℕ) (h1 : 1 ≤ i) (h2 : i < nThreads) :
    visibilityScaleLoop nThreads stats i =
      (stats i).map (fun s => s / (measurementArraySize : ℚ)) ∧
    measurementArraySize = 256 ∧
    visibilityScaleLoop nThreads stats 0 = stats 0 := by
  refine ⟨?_, rfl, ?_⟩
  · rw [visibilityScaleLoop_eq_scaleFold,
      scaleFold_inside (nThreads - 1) 1 stats i h1 (by omega)]
    rfl
  · rw [visibilityScaleLoop_eq_scaleFold,
      scaleFold_outside (nThreads - 1) 1 stats 0 (Or.inl (by omega))]

/-- Witness for C9 at nThreads = 3, every statistic holding one sample of
512 ticks, poller count 1. -/
theorem visibilityScaleLoop_scales_witness :
    visibilityScaleLoop 3 (fun _ => ([512] : List ℚ)) 1 =
      ([512] : List ℚ).map (fun s => s / (measurementArraySize : ℚ)) ∧
    measurementArraySize = 256 ∧
    visibilityScaleLoop 3 (fun _ => ([512] : List ℚ)) 0 = [512] :=
  visibilityScaleLoop_scales 3 (fun _ => ([512] : List ℚ)) 1 (by decide) (by decide)

end LoadsStores
